import Mathlib

/-
A verification development for the dispatch core of a message-broker
framework (subscription registry, in-memory broker simulator, middleware
chain, RPC correlator, scoped per-call context) and for the Redis
AsyncAPI schema generation module.

The schema generation definitions are a direct shallow embedding of
src/faststream/redis/asyncapi.py.  The dispatch-core definitions are
modelled from the specification, since the dispatcher, simulator and
context implementations themselves are not among the analysed sources
(only their test suites are); each such definition carries a doc comment
saying what it models.
-/

set_option linter.unusedVariables false

/-- Message payload values exchanged through the broker: strings,
integers and sequences (used for batch deliveries and tuple returns). -/
inductive Value where
  | str : String → Value
  | int : Int → Value
  | list : List Value → Value

/-- Modelled from the spec: a registered subscription record of the
subscription registry, restricted to the exact match kind: a destination
pattern compared by string equality, a batch flag, the handler pipeline,
and an optional attached outbound publication target. -/
structure Subscription where
  pattern : String
  isBatch : Bool
  handler : Value → Option Value
  publisher : Option String

/-- The argument a delivery hands to the handler of a subscription: a
batch subscription receives a one-element sequence for a single publish,
a plain subscription receives the body itself. -/
def argFor (s : Subscription) (body : Value) : Value :=
  if s.isBatch then Value.list [body] else body

/-- Result of delivering one publication: the handler invocations made
(subscription index paired with the argument, in registration order) and
the outbound publication instructions produced by handler return values. -/
structure StepResult where
  calls : List (Nat × Value)
  pubs : List (String × Value)

/-- The outbound publication instructions one subscription produces for
one delivery: when the handler returns a value and the subscription
carries an attached publication target, one instruction to that target. -/
def pubsOf (s : Subscription) (body : Value) : List (String × Value) :=
  match s.handler (argFor s body), s.publisher with
  | some v, some p => [(p, v)]
  | _, _ => []

/-- Modelled from the spec: one simulator delivery of a publication to
the registry slice starting at index k.  Every subscription whose exact
pattern equals the destination fires, in registration order. -/
def stepFrom (dest : String) (body : Value) : Nat → List Subscription → StepResult
  | _, [] => ⟨[], []⟩
  | k, s :: rest =>
    let r := stepFrom dest body (k + 1) rest
    if s.pattern = dest then
      ⟨(k, argFor s body) :: r.calls, pubsOf s body ++ r.pubs⟩
    else r

/-- Modelled from the spec: one simulator delivery of a publication to
the whole registry. -/
def step (subs : List Subscription) (dest : String) (body : Value) : StepResult :=
  stepFrom dest body 0 subs

/-- Modelled from the spec: the handler invocations produced by running a
sequence of publications through the simulator, in publish order. -/
def runSeqCalls (subs : List Subscription) (pubs : List (String × Value)) : List (Nat × Value) :=
  pubs.flatMap (fun pv => (step subs pv.1 pv.2).calls)

/-- A subscription that echoes its input, used to instantiate theorems. -/
def echoSub (q : String) : Subscription :=
  ⟨q, false, fun v => some v, none⟩

theorem stepFrom_cons_pos (dest : String) (body : Value) (k : Nat) (a : Subscription)
    (t : List Subscription) (h : a.pattern = dest) :
    stepFrom dest body k (a :: t) =
      ⟨(k, argFor a body) :: (stepFrom dest body (k + 1) t).calls,
        pubsOf a body ++ (stepFrom dest body (k + 1) t).pubs⟩ := by
  simp [stepFrom, h]

theorem stepFrom_cons_neg (dest : String) (body : Value) (k : Nat) (a : Subscription)
    (t : List Subscription) (h : ¬ a.pattern = dest) :
    stepFrom dest body k (a :: t) = stepFrom dest body (k + 1) t := by
  simp [stepFrom, h]

theorem stepFrom_calls_lb (dest : String) (body : Value) :
    ∀ (subs : List Subscription) (k : Nat), ∀ c ∈ (stepFrom dest body k subs).calls, k ≤ c.1 := by
  intro subs
  induction subs with
  | nil => intro k c hc; simp [stepFrom] at hc
  | cons a t ih =>
    intro k c hc
    by_cases h : a.pattern = dest
    · rw [stepFrom_cons_pos dest body k a t h] at hc
      rcases List.mem_cons.mp hc with hc | hc
      · simp [hc]
      · exact le_trans (Nat.le_succ k) (ih (k + 1) c hc)
    · rw [stepFrom_cons_neg dest body k a t h] at hc
      exact le_trans (Nat.le_succ k) (ih (k + 1) c hc)

theorem stepFrom_count (dest : String) (body : Value) :
    ∀ (subs : List Subscription) (i k : Nat) (s : Subscription), subs[i]? = some s →
      (stepFrom dest body k subs).calls.countP (fun c => c.1 == k + i) =
        if s.pattern = dest then 1 else 0 := by
  intro subs
  induction subs with
  | nil => intro i k s hs; simp at hs
  | cons a t ih =>
    intro i k s hs
    have tail_zero : (stepFrom dest body (k + 1) t).calls.countP (fun c => c.1 == k) = 0 := by
      apply List.countP_eq_zero.mpr
      intro c hc
      have hk : k + 1 ≤ c.1 := stepFrom_calls_lb dest body t (k + 1) c hc
      simp only [beq_iff_eq]
      omega
    cases i with
    | zero =>
      have hsa : a = s := by simpa using hs
      subst hsa
      by_cases h : a.pattern = dest
      · rw [stepFrom_cons_pos dest body k a t h, if_pos h]
        have e0 : k + 0 = k := rfl
        rw [e0]
        simp [List.countP_cons, tail_zero]
      · rw [stepFrom_cons_neg dest body k a t h, if_neg h]
        have e0 : k + 0 = k := rfl
        rw [e0]
        exact tail_zero
    | succ n =>
      have hs2 : t[n]? = some s := by simpa using hs
      have ihn := ih n (k + 1) s hs2
      have harith : k + 1 + n = k + (n + 1) := by omega
      rw [harith] at ihn
      by_cases h : a.pattern = dest
      · rw [stepFrom_cons_pos dest body k a t h]
        have hh : (k == k + (n + 1)) = false := by
          simp only [beq_eq_false_iff_ne, ne_eq]
          omega
        simp only [List.countP_cons]
        simp only [hh, if_false, Nat.add_zero]
        exact ihn
      · rw [stepFrom_cons_neg dest body k a t h]
        exact ihn

theorem stepFrom_mem (dest : String) (body : Value) :
    ∀ (subs : List Subscription) (i k : Nat) (s : Subscription), subs[i]? = some s →
      s.pattern = dest → (k + i, argFor s body) ∈ (stepFrom dest body k subs).calls := by
  intro subs
  induction subs with
  | nil => intro i k s hs; simp at hs
  | cons a t ih =>
    intro i k s hs hp
    cases i with
    | zero =>
      have hsa : a = s := by simpa using hs
      subst hsa
      rw [stepFrom_cons_pos dest body k a t hp]
      have e0 : k + 0 = k := rfl
      rw [e0]
      exact List.mem_cons_self _ _
    | succ n =>
      have hs2 : t[n]? = some s := by simpa using hs
      have ihn := ih n (k + 1) s hs2 hp
      have harith : k + 1 + n = k + (n + 1) := by omega
      rw [harith] at ihn
      by_cases h : a.pattern = dest
      · rw [stepFrom_cons_pos dest body k a t h]
        exact List.mem_cons_of_mem _ ihn
      · rw [stepFrom_cons_neg dest body k a t h]
        exact ihn

theorem step_count (subs : List Subscription) (dest : String) (body : Value)
    (i : Nat) (s : Subscription) (hs : subs[i]? = some s) :
    (step subs dest body).calls.countP (fun c => c.1 == i) =
      if s.pattern = dest then 1 else 0 := by
  have h := stepFrom_count dest body subs i 0 s hs
  simpa [step] using h

/-- C1: For every registered exact-match subscription S and every publish
to destination D, the handler of S is invoked for that message (exactly
once) iff D equals the registered pattern of S; in particular, one
handler registered under two distinct destinations is invoked exactly
once per destination when one message is published to each. -/
theorem exact_match_routing (subs : List Subscription) (dest : String) (body : Value)
    (i : Nat) (s : Subscription) (hs : subs[i]? = some s) :
    ((step subs dest body).calls.countP (fun c => c.1 == i) = if s.pattern = dest then 1 else 0)
    ∧ ((∃ a, (i, a) ∈ (step subs dest body).calls) ↔ s.pattern = dest)
    ∧ (∀ (j : Nat) (t : Subscription) (b₁ b₂ : Value), subs[j]? = some t →
        t.handler = s.handler → s.pattern ≠ t.pattern →
        (runSeqCalls subs [(s.pattern, b₁), (t.pattern, b₂)]).countP (fun c => c.1 == i) = 1 ∧
        (runSeqCalls subs [(s.pattern, b₁), (t.pattern, b₂)]).countP (fun c => c.1 == j) = 1) := by
  refine ⟨step_count subs dest body i s hs, ?_, ?_⟩
  · constructor
    · rintro ⟨a, ha⟩
      by_contra hp
      have hz := step_count subs dest body i s hs
      rw [if_neg hp] at hz
      have := List.countP_eq_zero.mp hz (i, a) ha
      simp at this
    · intro hp
      exact ⟨argFor s body, by simpa using stepFrom_mem dest body subs i 0 s hs hp⟩
  · intro j t b₁ b₂ ht hhandler hne
    have hseq : runSeqCalls subs [(s.pattern, b₁), (t.pattern, b₂)] =
        (step subs s.pattern b₁).calls ++ (step subs t.pattern b₂).calls := by
      simp [runSeqCalls]
    constructor
    · rw [hseq, List.countP_append]
      have h1 := step_count subs s.pattern b₁ i s hs
      have h2 := step_count subs t.pattern b₂ i s hs
      rw [if_pos rfl] at h1
      rw [if_neg hne] at h2
      omega
    · rw [hseq, List.countP_append]
      have h1 := step_count subs s.pattern b₁ j t ht
      have h2 := step_count subs t.pattern b₂ j t ht
      rw [if_neg (fun h => hne h.symm)] at h1
      rw [if_pos rfl] at h2
      omega

/-- C1 witness: two echo subscriptions under distinct destinations, one
message published to each: each is invoked exactly once. -/
theorem exact_match_routing_witness :
    (runSeqCalls [echoSub ("q"), echoSub ("q2")]
        [(("q"), Value.str ("hi")), (("q2"), Value.str ("hi"))]).countP (fun c => c.1 == 0) = 1 ∧
    (runSeqCalls [echoSub ("q"), echoSub ("q2")]
        [(("q"), Value.str ("hi")), (("q2"), Value.str ("hi"))]).countP (fun c => c.1 == 1) = 1 := by
  have h := (exact_match_routing [echoSub ("q"), echoSub ("q2")] ("q") (Value.str ("hi"))
      0 (echoSub ("q")) rfl).2.2 1 (echoSub ("q2")) (Value.str ("hi")) (Value.str ("hi"))
      rfl rfl (by simp [echoSub])
  exact h

/-- Modelled from the spec: the RPC correlator.  A call publishes the
body to the destination with a pending reply slot; the reply produced by
the matching handler resolves the call; none models a timeout during
which no reply arrived. -/
def rpcCall (subs : List Subscription) (dest : String) (body : Value) : Option Value :=
  match subs.find? (fun u => decide (u.pattern = dest)) with
  | some s => s.handler (argFor s body)
  | none => none

theorem find_of_filter_single {α : Type} (p : α → Bool) :
    ∀ (l : List α) (s : α), l.filter p = [s] → l.find? p = some s := by
  intro l
  induction l with
  | nil => intro s h; simp at h
  | cons a t ih =>
    intro s h
    by_cases hp : p a = true
    · have h2 : a :: t.filter p = [s] := by simpa [List.filter_cons, hp] using h
      rcases List.cons_eq_cons.mp h2 with ⟨ha, _⟩
      rw [List.find?_cons_of_pos _ hp, ha]
    · have h2 : t.filter p = [s] := by simpa [List.filter_cons, hp] using h
      rw [List.find?_cons_of_neg _ (by simpa using hp)]
      exact ih s h2

/-- C2: An RPC-style publish to a destination whose single registered
handler echoes its input returns to the caller a reply equal to the
published body, for every body. -/
theorem rpc_echo_roundtrip (subs : List Subscription) (dest : String) (s : Subscription)
    (hone : subs.filter (fun u => decide (u.pattern = dest)) = [s])
    (hecho : ∀ v, s.handler v = some v) (hb : s.isBatch = false) :
    ∀ body, rpcCall subs dest body = some body := by
  intro body
  unfold rpcCall
  rw [find_of_filter_single _ subs s hone]
  simp [argFor, hb, hecho]

/-- C2 witness: a single echo subscription answers an RPC publish with
the published body. -/
theorem rpc_echo_roundtrip_witness :
    rpcCall [echoSub ("q")] ("q") (Value.str ("hello")) = some (Value.str ("hello")) :=
  rpc_echo_roundtrip [echoSub ("q")] ("q") (echoSub ("q")) rfl (fun _ => rfl) rfl
    (Value.str ("hello"))

/-- Modelled from the spec: batch accumulation.  A batch subscription
with size bound n accumulates individually published messages in a
buffer and flushes the whole buffer to a single handler invocation when
the buffer reaches the bound.  The state is the pair of the current
buffer and the completed handler invocations. -/
def batchStep (n : Nat) (st : List Value × List (List Value)) (msg : Value) :
    List Value × List (List Value) :=
  let buf := st.1 ++ [msg]
  if n ≤ buf.length then ([], st.2 ++ [buf]) else (buf, st.2)

/-- Modelled from the spec: publishing a sequence of messages one at a
time to a batch subscription with size bound n, starting from an empty
buffer and no completed invocations. -/
def batchRun (n : Nat) (msgs : List Value) : List Value × List (List Value) :=
  msgs.foldl (batchStep n) ([], [])

theorem batchStep_eq (n : Nat) (buf : List Value) (acc : List (List Value)) (m : Value) :
    batchStep n (buf, acc) m =
      if n ≤ buf.length + 1 then ([], acc ++ [buf ++ [m]]) else (buf ++ [m], acc) := by
  simp [batchStep]

theorem batchRun_aux (n : Nat) :
    ∀ (msgs : List Value) (buf : List Value) (acc : List (List Value)),
      msgs ≠ [] → buf.length + msgs.length = n →
      msgs.foldl (batchStep n) (buf, acc) = ([], acc ++ [buf ++ msgs]) := by
  intro msgs
  induction msgs with
  | nil => intro buf acc h; exact absurd rfl h
  | cons m rest ih =>
    intro buf acc _ hlen
    simp only [List.foldl_cons]
    cases rest with
    | nil =>
      have hn : n ≤ buf.length + 1 := by
        simp at hlen
        omega
      rw [batchStep_eq, if_pos hn]
      simp
    | cons m2 rest2 =>
      have hlt : ¬ n ≤ buf.length + 1 := by
        simp at hlen
        omega
      rw [batchStep_eq, if_neg hlt]
      rw [ih (buf ++ [m]) acc (by simp) (by
        simp at hlen ⊢
        omega)]
      simp

/-- C3: For a batch subscription with size bound n, publishing exactly n
messages individually yields exactly one handler invocation, receiving
the sequence of the n messages in publish order; for n = 1 a single
publish yields one invocation with a one-element sequence. -/
theorem batch_accumulation (n : Nat) (msgs : List Value) (hn : 0 < n)
    (hlen : msgs.length = n) :
    batchRun n msgs = ([], [msgs]) := by
  have hne : msgs ≠ [] := by
    intro h
    subst h
    simp at hlen
    omega
  have h := batchRun_aux n msgs [] [] hne (by simpa using hlen)
  simpa [batchRun] using h

/-- C3 witness: with bound 1, a single publish yields one invocation
with a one-element sequence. -/
theorem batch_accumulation_witness :
    batchRun 1 [Value.str ("hello")] = ([], [[Value.str ("hello")]]) :=
  batch_accumulation 1 [Value.str ("hello")] Nat.one_pos rfl

theorem stepFrom_filter_nil (dest : String) (body : Value) :
    ∀ (subs : List Subscription) (k : Nat),
      subs.filter (fun u => decide (u.pattern = dest)) = [] →
      stepFrom dest body k subs = ⟨[], []⟩ := by
  intro subs
  induction subs with
  | nil => intro k h; rfl
  | cons a t ih =>
    intro k h
    by_cases hp : a.pattern = dest
    · simp [List.filter_cons, hp] at h
    · have h2 : t.filter (fun u => decide (u.pattern = dest)) = [] := by
        simpa [List.filter_cons, hp] using h
      rw [stepFrom_cons_neg dest body k a t hp]
      exact ih (k + 1) h2

theorem stepFrom_filter_single (dest : String) (body : Value) :
    ∀ (subs : List Subscription) (k : Nat) (s : Subscription),
      subs.filter (fun u => decide (u.pattern = dest)) = [s] →
      (stepFrom dest body k subs).pubs = pubsOf s body := by
  intro subs
  induction subs with
  | nil => intro k s h; simp at h
  | cons a t ih =>
    intro k s h
    by_cases hp : a.pattern = dest
    · have h2 : a :: t.filter (fun u => decide (u.pattern = dest)) = [s] := by
        simpa [List.filter_cons, hp] using h
      rcases List.cons_eq_cons.mp h2 with ⟨ha, ht⟩
      rw [stepFrom_cons_pos dest body k a t hp, ha]
      rw [stepFrom_filter_nil dest body t (k + 1) ht]
      simp
    · have h2 : t.filter (fun u => decide (u.pattern = dest)) = [s] := by
        simpa [List.filter_cons, hp] using h
      rw [stepFrom_cons_neg dest body k a t hp]
      exact ih (k + 1) s h2

/-- Modelled from the spec: a dispatch with one level of outbound
cascade.  The publication is delivered; then every outbound publication
instruction produced by a handler return value is itself delivered once,
running the outbound path.  Handler calls and publication records (the
log the publisher mock exposes) accumulate across the two levels. -/
def dispatch2 (subs : List Subscription) (dest : String) (body : Value) : StepResult :=
  let r := step subs dest body
  let rs := r.pubs.map (fun pv => step subs pv.1 pv.2)
  ⟨r.calls ++ (rs.map StepResult.calls).flatten, r.pubs ++ (rs.map StepResult.pubs).flatten⟩

/-- C4: When the unique subscription matching a destination carries an
attached outbound publisher and its handler returns a value v, exactly
one publication of v to the publisher destination is produced (a
sequence value returned to a batch publisher is published as one single
publication), it is recorded by the publisher mock log, and it is
delivered onward to every subscriber of the publisher destination. -/
theorem publisher_forwarding (subs : List Subscription) (dest p : String)
    (s : Subscription) (body v : Value)
    (hone : subs.filter (fun u => decide (u.pattern = dest)) = [s])
    (hp : s.publisher = some p) (hb : s.isBatch = false)
    (hv : s.handler body = some v) :
    (step subs dest body).pubs = [(p, v)]
    ∧ (p, v) ∈ (dispatch2 subs dest body).pubs
    ∧ ∀ (j : Nat) (u : Subscription), subs[j]? = some u → u.pattern = p →
        (j, argFor u v) ∈ (dispatch2 subs dest body).calls := by
  have hpubsof : pubsOf s body = [(p, v)] := by
    simp [pubsOf, argFor, hb, hv, hp]
  have hpubs : (step subs dest body).pubs = [(p, v)] := by
    rw [step, stepFrom_filter_single dest body subs 0 s hone, hpubsof]
  refine ⟨hpubs, ?_, ?_⟩
  · simp [dispatch2, hpubs]
  · intro j u hj hup
    have hmem : (j, argFor u v) ∈ (step subs p v).calls := by
      have := stepFrom_mem p v subs j 0 u hj hup
      simpa [step] using this
    simp [dispatch2, hpubs]
    right
    exact hmem

/-- A subscription with an attached outbound publisher target, used to
instantiate theorems. -/
def pubSub : Subscription :=
  ⟨("q"), false, fun _ => some (Value.str ("resp")), some ("qresp")⟩

/-- C4 witness: a subscription on destination q publishing its return
value to qresp; the mock records the value and the echo subscriber on
qresp receives it. -/
theorem publisher_forwarding_witness :
    (step [pubSub, echoSub ("qresp")] ("q") (Value.str ("x"))).pubs =
      [(("qresp"), Value.str ("resp"))]
    ∧ ((("qresp"), Value.str ("resp")) ∈
        (dispatch2 [pubSub, echoSub ("qresp")] ("q") (Value.str ("x"))).pubs)
    ∧ (1, Value.str ("resp")) ∈
        (dispatch2 [pubSub, echoSub ("qresp")] ("q") (Value.str ("x"))).calls := by
  have h := publisher_forwarding [pubSub, echoSub ("qresp")] ("q") ("qresp") pubSub
    (Value.str ("x")) (Value.str ("resp")) rfl rfl rfl rfl
  exact ⟨h.1, h.2.1, h.2.2 1 (echoSub ("qresp")) rfl rfl⟩

/-- Indexing helper: pairs each element of a list with its position,
counting from k. -/
def enumFrom {α : Type} : Nat → List α → List (Nat × α)
  | _, [] => []
  | k, a :: as => (k, a) :: enumFrom (k + 1) as

/-- Trace events an observing harness records: a middleware receive hook
firing for a delivery to a subscription, or a handler invocation. -/
inductive TrEv where
  | onReceive : Nat → Nat → TrEv
  | handlerCall : Nat → Value → TrEv

/-- The events of dispatching one message to subscription i: each
registered middleware fires its receive hook once, in registration
order, then the handler runs. -/
def dispatchEvents (ms : List Nat) (i : Nat) (body : Value) : List TrEv :=
  ms.map (fun m => TrEv.onReceive m i) ++ [TrEv.handlerCall i body]

/-- Modelled from the spec: the in-memory simulator.  Each publication
is routed, in publish order, to every subscription whose pattern equals
its destination, in registration order, running the middleware chain
and then the handler. -/
def simTrace (ms : List Nat) (subs : List Subscription)
    (pubs : List (String × Value)) : List TrEv :=
  pubs.flatMap (fun pv =>
    (enumFrom 0 subs).flatMap (fun is =>
      if pv.1 = is.2.pattern then dispatchEvents ms is.1 pv.2 else []))

/-- Modelled from the spec: the transport contract.  subscribe yields,
per subscription, the stream of exactly the messages sent to its
destination, each tagged with its global publish index, in publish
order. -/
def subStream (s : Subscription) (ipubs : List (Nat × (String × Value))) : List (Nat × Value) :=
  (ipubs.filter (fun kp => decide (kp.2.1 = s.pattern))).map (fun kp => (kp.1, kp.2.2))

/-- Modelled from the spec: the events one subscription produces while
consuming its own stream from the real transport, each tagged with the
publish index of the message that caused it. -/
def subEvents (ms : List Nat) (i : Nat) (s : Subscription)
    (ipubs : List (Nat × (String × Value))) : List (Nat × TrEv) :=
  (subStream s ipubs).flatMap (fun kv => (dispatchEvents ms i kv.2).map (fun e => (kv.1, e)))

/-- Selects the events tagged with publish index k. -/
def pickTag {γ : Type} (k : Nat) (ke : Nat × γ) : Option γ :=
  if ke.1 = k then some ke.2 else none

/-- Modelled from the spec: the trace an integration harness records
against the real transport.  Every subscription consumes its own stream
independently; the recorded global order groups events by the publish
index that caused them, subscriptions in registration order. -/
def realTrace (ms : List Nat) (subs : List Subscription)
    (pubs : List (String × Value)) : List TrEv :=
  ((enumFrom 0 pubs).map Prod.fst).flatMap (fun k =>
    ((enumFrom 0 subs).flatMap
        (fun is => subEvents ms is.1 is.2 (enumFrom 0 pubs))).filterMap (pickTag k))

theorem filterMap_flatMap_eq {α β γ : Type} (l : List α) (f : α → List β) (g : β → Option γ) :
    (l.flatMap f).filterMap g = l.flatMap (fun a => (f a).filterMap g) := by
  induction l with
  | nil => rfl
  | cons a t ih => simp [List.flatMap_cons, List.filterMap_append, ih]

theorem flatMap_congr_mem {α β : Type} (l : List α) (f g : α → List β)
    (h : ∀ a ∈ l, f a = g a) : l.flatMap f = l.flatMap g := by
  induction l with
  | nil => rfl
  | cons a t ih =>
    simp only [List.flatMap_cons]
    rw [h a (List.mem_cons_self a t), ih (fun x hx => h x (List.mem_cons_of_mem a hx))]

theorem filterMap_pickTag_nil {γ : Type} (l : List (Nat × γ)) (k : Nat)
    (h : ∀ ke ∈ l, ¬ ke.1 = k) : l.filterMap (pickTag k) = [] := by
  induction l with
  | nil => rfl
  | cons a t ih =>
    have ha : pickTag k a = none := by
      simp [pickTag, h a (List.mem_cons_self a t)]
    simp only [List.filterMap_cons, ha]
    exact ih (fun x hx => h x (List.mem_cons_of_mem a hx))

theorem filterMap_pickTag_map {γ : Type} (l : List γ) (k0 k : Nat) :
    ((l.map (fun e => (k0, e))).filterMap (pickTag k)) = if k0 = k then l else [] := by
  by_cases h : k0 = k
  · subst h
    rw [if_pos rfl]
    induction l with
    | nil => rfl
    | cons a t ih =>
      have ha : pickTag k0 ((k0, a) : Nat × γ) = some a := by simp [pickTag]
      simp only [List.map_cons, List.filterMap_cons, ha]
      rw [ih]
  · rw [if_neg h]
    apply filterMap_pickTag_nil
    intro ke hke
    rcases List.mem_map.mp hke with ⟨e, _, he⟩
    rw [← he]
    simpa using h

theorem subEvents_cons (ms : List Nat) (i : Nat) (s : Subscription) (n : Nat)
    (pv : String × Value) (ipubs : List (Nat × (String × Value))) :
    subEvents ms i s ((n, pv) :: ipubs) =
      (if pv.1 = s.pattern then (dispatchEvents ms i pv.2).map (fun e => (n, e)) else [])
        ++ subEvents ms i s ipubs := by
  by_cases h : pv.1 = s.pattern <;>
    simp [subEvents, subStream, List.filter_cons, h, List.flatMap_cons]

theorem subEvents_tag_lb (ms : List Nat) (i : Nat) (s : Subscription) :
    ∀ (pubs : List (String × Value)) (n : Nat),
      ∀ ke ∈ subEvents ms i s (enumFrom n pubs), n ≤ ke.1 := by
  intro pubs
  induction pubs with
  | nil => intro n ke hke; simp [subEvents, subStream, enumFrom] at hke
  | cons pv rest ih =>
    intro n ke hke
    rw [show enumFrom n (pv :: rest) = (n, pv) :: enumFrom (n + 1) rest from rfl] at hke
    rw [subEvents_cons] at hke
    rcases List.mem_append.mp hke with hke | hke
    · by_cases h : pv.1 = s.pattern
      · rw [if_pos h] at hke
        rcases List.mem_map.mp hke with ⟨e, _, he⟩
        simp [← he]
      · rw [if_neg h] at hke
        simp at hke
    · exact le_trans (Nat.le_succ n) (ih (n + 1) ke hke)

theorem enumFrom_fst_lb {α : Type} (l : List α) :
    ∀ (k : Nat), ∀ x ∈ (enumFrom k l).map Prod.fst, k ≤ x := by
  induction l with
  | nil => intro k x hx; simp [enumFrom] at hx
  | cons a t ih =>
    intro k x hx
    simp only [enumFrom, List.map_cons] at hx
    rcases List.mem_cons.mp hx with h | hx
    · exact le_of_eq (by simpa using h.symm)
    · exact le_trans (Nat.le_succ k) (ih (k + 1) x hx)

theorem realTrace_aux (ms : List Nat) (subs : List Subscription) :
    ∀ (pubs : List (String × Value)) (n : Nat),
      ((enumFrom n pubs).map Prod.fst).flatMap (fun k =>
        ((enumFrom 0 subs).flatMap
            (fun is => subEvents ms is.1 is.2 (enumFrom n pubs))).filterMap (pickTag k)) =
      pubs.flatMap (fun pv =>
        (enumFrom 0 subs).flatMap (fun is =>
          if pv.1 = is.2.pattern then dispatchEvents ms is.1 pv.2 else [])) := by
  intro pubs
  induction pubs with
  | nil => intro n; rfl
  | cons pv rest ih =>
    intro n
    simp only [enumFrom, List.map_cons, List.flatMap_cons]
    congr 1
    · rw [filterMap_flatMap_eq]
      apply flatMap_congr_mem
      intro is _
      rw [subEvents_cons, List.filterMap_append]
      have h2 : (subEvents ms is.1 is.2 (enumFrom (n + 1) rest)).filterMap (pickTag n) = [] := by
        apply filterMap_pickTag_nil
        intro ke hke
        have := subEvents_tag_lb ms is.1 is.2 rest (n + 1) ke hke
        omega
      rw [h2, List.append_nil]
      by_cases h : pv.1 = is.2.pattern
      · rw [if_pos h, if_pos h, filterMap_pickTag_map, if_pos rfl]
      · rw [if_neg h, if_neg h]
        rfl
    · have hswap :
          ((enumFrom (n + 1) rest).map Prod.fst).flatMap (fun k =>
            ((enumFrom 0 subs).flatMap
                (fun is => subEvents ms is.1 is.2 ((n, pv) :: enumFrom (n + 1) rest))).filterMap
              (pickTag k)) =
          ((enumFrom (n + 1) rest).map Prod.fst).flatMap (fun k =>
            ((enumFrom 0 subs).flatMap
                (fun is => subEvents ms is.1 is.2 (enumFrom (n + 1) rest))).filterMap
              (pickTag k)) := by
        apply flatMap_congr_mem
        intro k hk
        have hkge : n + 1 ≤ k := enumFrom_fst_lb rest (n + 1) k hk
        rw [filterMap_flatMap_eq, filterMap_flatMap_eq]
        apply flatMap_congr_mem
        intro is _
        rw [subEvents_cons, List.filterMap_append]
        have hhead : ((if pv.1 = is.2.pattern
              then (dispatchEvents ms is.1 pv.2).map (fun e => (n, e))
              else []).filterMap (pickTag k)) = [] := by
          by_cases h : pv.1 = is.2.pattern
          · rw [if_pos h, filterMap_pickTag_map, if_neg (by omega)]
          · rw [if_neg h]
            rfl
        rw [hhead, List.nil_append]
      rw [hswap, ih (n + 1)]

/-- Recognizes the receive-hook events of middleware m. -/
def isOnRecvOf (m : Nat) : TrEv → Bool
  | TrEv.onReceive m2 _ => m2 == m
  | TrEv.handlerCall _ _ => false

theorem countP_flatMap_eq {α β : Type} (l : List α) (f : α → List β) (p : β → Bool) :
    (l.flatMap f).countP p = (l.map (fun a => (f a).countP p)).sum := by
  induction l with
  | nil => rfl
  | cons a t ih => simp [List.flatMap_cons, List.countP_append, ih]

theorem countP_beq_self_of_nodup (m : Nat) :
    ∀ (ms : List Nat), ms.Nodup → m ∈ ms → ms.countP (fun x => x == m) = 1 := by
  intro ms
  induction ms with
  | nil => intro _ hm; simp at hm
  | cons a t ih =>
    intro hnd hm
    rcases List.nodup_cons.mp hnd with ⟨hna, hndt⟩
    rcases List.mem_cons.mp hm with rfl | hm2
    · have hz : t.countP (fun x => x == m) = 0 := by
        apply List.countP_eq_zero.mpr
        intro x hx
        simp only [beq_iff_eq]
        intro hxa
        exact hna (hxa ▸ hx)
      simp [List.countP_cons, hz]
    · have hne : (a == m) = false := by
        simp only [beq_eq_false_iff_ne, ne_eq]
        intro ham
        exact hna (ham ▸ hm2)
      simp [List.countP_cons, hne, ih hndt hm2]

theorem countP_dispatchEvents (ms : List Nat) (i : Nat) (b : Value) (m : Nat)
    (hnd : ms.Nodup) (hm : m ∈ ms) :
    (dispatchEvents ms i b).countP (isOnRecvOf m) = 1 := by
  have h1 : (ms.map (fun x => TrEv.onReceive x i)).countP (isOnRecvOf m) =
      ms.countP (fun x => x == m) := by
    rw [List.countP_map]
    rfl
  simp [dispatchEvents, List.countP_append, h1, isOnRecvOf,
    countP_beq_self_of_nodup m ms hnd hm]

theorem enumFrom_match_sum (ms : List Nat) (subs : List Subscription) (d : String)
    (b : Value) (m : Nat) (hnd : ms.Nodup) (hm : m ∈ ms) :
    ∀ (k : Nat),
      ((enumFrom k subs).map (fun is =>
          (if d = is.2.pattern then dispatchEvents ms is.1 b else []).countP
            (isOnRecvOf m))).sum =
      (subs.filter (fun u => decide (u.pattern = d))).length := by
  induction subs with
  | nil => intro k; rfl
  | cons a t ih =>
    intro k
    simp only [enumFrom, List.map_cons, List.sum_cons, List.filter_cons]
    by_cases h : d = a.pattern
    · rw [if_pos h, countP_dispatchEvents ms k b m hnd hm]
      rw [if_pos (by simp [h.symm])]
      rw [ih (k + 1)]
      simp only [List.length_cons]
      omega
    · rw [if_neg h]
      rw [if_neg (by simp; exact fun hc => h hc.symm)]
      rw [ih (k + 1)]
      simp

theorem simTrace_count (ms : List Nat) (subs : List Subscription)
    (pubs : List (String × Value)) (m : Nat) (hnd : ms.Nodup) (hm : m ∈ ms) :
    (simTrace ms subs pubs).countP (isOnRecvOf m) =
      (pubs.map (fun pv =>
        (subs.filter (fun u => decide (u.pattern = pv.1))).length)).sum := by
  rw [simTrace, countP_flatMap_eq]
  congr 1
  apply List.map_congr_left
  intro pv _
  rw [countP_flatMap_eq]
  exact enumFrom_match_sum ms subs pv.1 pv.2 m hnd hm 0

/-- C5: Running the same subscriptions and publish sequence against the
in-memory simulator and against the modelled real transport (every
subscription consuming its own per-destination stream) produces
identical event traces; and in both modes every registered middleware
fires its receive hook exactly once per matching subscription per
publication. -/
theorem simulator_real_equivalence (ms : List Nat) (subs : List Subscription)
    (pubs : List (String × Value)) :
    realTrace ms subs pubs = simTrace ms subs pubs
    ∧ (∀ m, ms.Nodup → m ∈ ms →
        (simTrace ms subs pubs).countP (isOnRecvOf m) =
          (pubs.map (fun pv =>
            (subs.filter (fun u => decide (u.pattern = pv.1))).length)).sum
        ∧ (realTrace ms subs pubs).countP (isOnRecvOf m) =
          (pubs.map (fun pv =>
            (subs.filter (fun u => decide (u.pattern = pv.1))).length)).sum) := by
  have htr : realTrace ms subs pubs = simTrace ms subs pubs := by
    rw [realTrace, simTrace]
    exact realTrace_aux ms subs pubs 0
  refine ⟨htr, fun m hnd hm => ?_⟩
  have hc := simTrace_count ms subs pubs m hnd hm
  exact ⟨hc, by rw [htr]; exact hc⟩

/-- C5 witness: one middleware, two subscriptions, one publish to each
destination: the receive hook fires exactly twice, in both modes. -/
theorem simulator_real_equivalence_witness :
    (simTrace [0] [echoSub ("q"), echoSub ("q1")]
        [(("q"), Value.str ("")), (("q1"), Value.str (""))]).countP (isOnRecvOf 0) = 2
    ∧ (realTrace [0] [echoSub ("q"), echoSub ("q1")]
        [(("q"), Value.str ("")), (("q1"), Value.str (""))]).countP (isOnRecvOf 0) = 2 := by
  have h := (simulator_real_equivalence [0] [echoSub ("q"), echoSub ("q1")]
      [(("q"), Value.str ("")), (("q1"), Value.str (""))]).2 0
      (List.nodup_singleton 0) (List.mem_singleton.mpr rfl)
  exact ⟨h.1.trans rfl, h.2.trans rfl⟩

/-- Sets key k to value v in an association-list context, replacing any
earlier binding. -/
def ctxSet (g : List (String × Value)) (k : String) (v : Value) : List (String × Value) :=
  (k, v) :: g.filter (fun e => !(e.1 == k))

/-- The context state split the way the spec describes it: a per-call
scoped part owned by one dispatch, and the process-global part. -/
structure CtxState where
  scopedCtx : List (String × Value)
  globalCtx : List (String × Value)

/-- Modelled from the spec and from the initial-context tests of the
repository: one dispatch of message msg to a handler declaring an
initial-context parameter.  The Dispatcher establishes the per-call
scoped context for the duration of the dispatch and tears it down on
exit; the handler resolves the initial-context parameter by reading the
collection stored under key in the process-global context, initialising
it to the empty collection on first use, and adds msg to it; the
updated collection remains in the global context.  The first component
of the result is the scoped context visible during the dispatch, the
second the state after the dispatch ends. -/
def dispatchOneCtx (key : String) (st : CtxState) (msg : Int) :
    List (String × Value) × CtxState :=
  let scopedIn := ctxSet st.scopedCtx ("message") (Value.int msg)
  let cur := match st.globalCtx.lookup key with
    | some (Value.list vs) => vs
    | _ => []
  (scopedIn, ⟨[], ctxSet st.globalCtx key (Value.list (cur ++ [Value.int msg]))⟩)

/-- Modelled from the initial-context tests: publishing each message in
msgs to the subscription, starting from empty contexts, and returning
the state after all dispatches ended and the broker closed. -/
def runCtxTest (key : String) (msgs : List Int) : CtxState :=
  msgs.foldl (fun st m => (dispatchOneCtx key st m).2) ⟨[], []⟩

theorem lookup_ctxSet (g : List (String × Value)) (k : String) (v : Value) :
    (ctxSet g k v).lookup k = some v := by
  simp [ctxSet, List.lookup]

theorem runCtx_accum (key : String) :
    ∀ (msgs : List Int) (st : CtxState) (vs : List Value),
      st.globalCtx.lookup key = some (Value.list vs) →
      (msgs.foldl (fun st m => (dispatchOneCtx key st m).2) st).globalCtx.lookup key =
        some (Value.list (vs ++ msgs.map Value.int)) := by
  intro msgs
  induction msgs with
  | nil => intro st vs h; simpa using h
  | cons m rest ih =>
    intro st vs h
    simp only [List.foldl_cons]
    have hstep : ((dispatchOneCtx key st m).2).globalCtx.lookup key
        = some (Value.list (vs ++ [Value.int m])) := by
      simp only [dispatchOneCtx, h]
      exact lookup_ctxSet _ _ _
    have hrec := ih ((dispatchOneCtx key st m).2) (vs ++ [Value.int m]) hstep
    rw [hrec]
    simp

theorem runCtx_scoped (key : String) :
    ∀ (msgs : List Int) (st : CtxState), msgs ≠ [] →
      (msgs.foldl (fun st m => (dispatchOneCtx key st m).2) st).scopedCtx = [] := by
  intro msgs
  induction msgs with
  | nil => intro st h; exact absurd rfl h
  | cons m rest ih =>
    intro st _
    simp only [List.foldl_cons]
    cases rest with
    | nil => simp [dispatchOneCtx]
    | cons m2 r2 => exact ih _ (by simp)

/-- C6 counterexample: in the scenario of the initial-context tests (two
messages published to a subscription whose handler declares an
initial-set context under the queue key), after all dispatches have
ended and the broker is closed, the accumulated per-message value is
still readable from the process-global context, refuting the claim that
no per-message context value survives the dispatch. -/
theorem context_survival_counterexample :
    (runCtxTest ("q") [1, 2]).globalCtx.lookup ("q")
      = some (Value.list [Value.int 1, Value.int 2])
    ∧ ¬ (runCtxTest ("q") [1, 2]).globalCtx.lookup ("q") = none := by
  have h : (runCtxTest ("q") [1, 2]).globalCtx.lookup ("q")
      = some (Value.list [Value.int 1, Value.int 2]) := rfl
  refine ⟨h, ?_⟩
  rw [h]
  simp

/-- C6 amended: the per-call scoped context established by the
Dispatcher is torn down when each dispatch ends, on every path; but a
context value declared with an initial-value factory is created in the
process-global context on first dispatch and survives after dispatch
and broker close, accumulating the per-message data across dispatches
until explicitly reset. -/
theorem context_scoped_teardown (key : String) (msgs : List Int) :
    (runCtxTest key msgs).scopedCtx = []
    ∧ (msgs ≠ [] → (runCtxTest key msgs).globalCtx.lookup key
        = some (Value.list (msgs.map Value.int))) := by
  constructor
  · cases msgs with
    | nil => rfl
    | cons m rest => exact runCtx_scoped key (m :: rest) ⟨[], []⟩ (by simp)
  · intro hne
    cases msgs with
    | nil => exact absurd rfl hne
    | cons m rest =>
      rw [runCtxTest]
      simp only [List.foldl_cons]
      have hstep : ((dispatchOneCtx key ⟨[], []⟩ m).2).globalCtx.lookup key
          = some (Value.list ([] ++ [Value.int m])) := by
        simp [dispatchOneCtx, List.lookup]
      have hrec := runCtx_accum key rest ((dispatchOneCtx key ⟨[], []⟩ m).2)
        [Value.int m] (by simpa using hstep)
      rw [hrec]
      simp

/-- C6 witness for the amended statement: two dispatches, scoped context
empty afterwards, global context holding both messages. -/
theorem context_scoped_teardown_witness :
    (runCtxTest ("q") [1, 2]).scopedCtx = []
    ∧ (runCtxTest ("q") [1, 2]).globalCtx.lookup ("q")
        = some (Value.list [Value.int 1, Value.int 2]) := by
  have h := context_scoped_teardown ("q") [1, 2]
  exact ⟨h.1, (h.2 (by simp)).trans rfl⟩

/-- Validation errors raised by the dependency-resolution and validation
layer. -/
inductive ValErr where
  | typeError : String → ValErr

/-- Modelled from the spec: the dispatch of one decoded message through
the validation layer.  The per-subscription payload resolver runs as an
opaque step between decode and handler invocation; on failure the
message is rejected with a validation error before the handler runs.
The result carries the disposition and the list of arguments the
handler body was actually invoked with. -/
def dispatchValidated (resolve : Value → Except ValErr Value)
    (handler : Value → Option Value) (body : Value) :
    Except ValErr (Option Value) × List Value :=
  match resolve body with
  | Except.error e => (Except.error e, [])
  | Except.ok payload => (Except.ok (handler payload), [payload])

/-- A payload resolver declaring an integer payload, modelling the
coercion rules of the validation layer: integers pass, strings spelling
an integer literal are coerced, anything else fails validation. -/
def intPayloadResolver : Value → Except ValErr Value
  | Value.int n => Except.ok (Value.int n)
  | Value.str s =>
    if s.data ≠ [] ∧ s.data.all (fun c => c.isDigit) then
      Except.ok (Value.int (s.data.foldl (fun acc c => acc * 10 + (c.toNat - 48)) 0))
    else Except.error (ValErr.typeError s)
  | Value.list _ => Except.error (ValErr.typeError ("sequence"))

/-- C7: When the declared payload schema rejects the decoded body, the
dispatch surfaces a validation error and the handler body is never
invoked for that message. -/
theorem validation_rejects_before_handler (resolve : Value → Except ValErr Value)
    (handler : Value → Option Value) (body : Value) (e : ValErr)
    (hfail : resolve body = Except.error e) :
    dispatchValidated resolve handler body = (Except.error e, []) := by
  simp [dispatchValidated, hfail]

/-- C7 witness: the string hi fails the declared integer schema: the
validation error surfaces and the handler invocation list is empty. -/
theorem validation_rejects_before_handler_witness :
    dispatchValidated intPayloadResolver (fun v => some v) (Value.str ("hi"))
      = (Except.error (ValErr.typeError ("hi")), []) :=
  validation_rejects_before_handler intPayloadResolver (fun v => some v)
    (Value.str ("hi")) (ValErr.typeError ("hi")) rfl

/-- Events of the wrapped execution of one dispatch: a scoped wrapper (a
generator-style dependency or an interceptor) entering (its setup
phase) or exiting (its cleanup phase), and the steps of the handler
body. -/
inductive WrapEv where
  | enter : Nat → WrapEv
  | body : Nat → WrapEv
  | exit : Nat → WrapEv
deriving DecidableEq

/-- Modelled from the spec: chain-of-responsibility unwinding of scoped
wrappers.  Each wrapper in ds runs its setup, delegates inward, and
runs its cleanup exactly once when the inner computation finishes,
whether the handler outcome is success or failure.  The core is the
handler body: its step labels and its success flag. -/
def runChain (ds : List Nat) (core : List Nat × Bool) : List WrapEv × Bool :=
  match ds with
  | [] => (core.1.map WrapEv.body, core.2)
  | d :: rest =>
    let r := runChain rest core
    (WrapEv.enter d :: (r.1 ++ [WrapEv.exit d]), r.2)

theorem runChain_shape (core : List Nat × Bool) :
    ∀ ds : List Nat, runChain ds core =
      (ds.map WrapEv.enter ++ core.1.map WrapEv.body ++ ds.reverse.map WrapEv.exit,
        core.2) := by
  intro ds
  induction ds with
  | nil => simp [runChain]
  | cons d rest ih => simp [runChain, ih]

theorem countP_map_ne {α : Type} (f : α → WrapEv) (ls : List α) (w : WrapEv)
    (h : ∀ x, ¬ f x = w) :
    (ls.map f).countP (fun e => decide (e = w)) = 0 := by
  apply List.countP_eq_zero.mpr
  intro e he
  rcases List.mem_map.mp he with ⟨x, _, hx⟩
  simp only [decide_eq_true_eq]
  rw [← hx]
  exact h x

theorem countP_enter_map (ds : List Nat) (d : Nat) :
    (ds.map WrapEv.enter).countP (fun e => decide (e = WrapEv.enter d)) =
      ds.countP (fun x => decide (x = d)) := by
  induction ds with
  | nil => rfl
  | cons a t ih => simp [List.countP_cons, ih, WrapEv.enter.injEq]

theorem countP_exit_map (ds : List Nat) (d : Nat) :
    (ds.map WrapEv.exit).countP (fun e => decide (e = WrapEv.exit d)) =
      ds.countP (fun x => decide (x = d)) := by
  induction ds with
  | nil => rfl
  | cons a t ih => simp [List.countP_cons, ih, WrapEv.exit.injEq]

theorem countP_decide_self_nodup (d : Nat) :
    ∀ ds : List Nat, ds.Nodup → d ∈ ds → ds.countP (fun x => decide (x = d)) = 1 := by
  intro ds
  induction ds with
  | nil => intro _ hm; simp at hm
  | cons a t ih =>
    intro hnd hm
    rcases List.nodup_cons.mp hnd with ⟨hna, hndt⟩
    rcases List.mem_cons.mp hm with rfl | hm2
    · have hz : t.countP (fun x => decide (x = d)) = 0 := by
        apply List.countP_eq_zero.mpr
        intro x hx
        simp only [decide_eq_true_eq]
        intro hxa
        exact hna (hxa ▸ hx)
      simp [List.countP_cons, hz]
    · have hne : ¬ a = d := by
        intro ham
        exact hna (ham ▸ hm2)
      simp [List.countP_cons, hne, ih hndt hm2]

/-- C8: For every dispatch through a chain of scoped wrappers (the
generator-style dependency among them), with the handler body in the
core: the setup of wrapper d runs exactly once, before the handler
body; its cleanup runs exactly once, after the handler body finishes,
on every exit path (success or failure alike); and the cleanup never
occurs among the events preceding or inside the handler body. -/
theorem scoped_dependency_lifecycle (ds : List Nat) (core : List Nat × Bool) (d : Nat)
    (hmem : d ∈ ds) (hnd : ds.Nodup) :
    (runChain ds core).1 =
      ds.map WrapEv.enter ++ core.1.map WrapEv.body ++ ds.reverse.map WrapEv.exit
    ∧ (runChain ds core).1.countP (fun e => decide (e = WrapEv.enter d)) = 1
    ∧ (runChain ds core).1.countP (fun e => decide (e = WrapEv.exit d)) = 1
    ∧ WrapEv.exit d ∉ ds.map WrapEv.enter ++ core.1.map WrapEv.body
    ∧ (runChain ds core).2 = core.2 := by
  have hshape := runChain_shape core ds
  have htrace : (runChain ds core).1 =
      ds.map WrapEv.enter ++ core.1.map WrapEv.body ++ ds.reverse.map WrapEv.exit := by
    rw [hshape]
  refine ⟨htrace, ?_, ?_, ?_, by rw [hshape]⟩
  · rw [htrace]
    rw [List.countP_append, List.countP_append]
    rw [countP_enter_map, countP_decide_self_nodup d ds hnd hmem]
    rw [countP_map_ne WrapEv.body _ _ (fun x => by simp)]
    rw [countP_map_ne WrapEv.exit _ _ (fun x => by simp)]
  · rw [htrace]
    rw [List.countP_append, List.countP_append]
    rw [countP_exit_map, countP_decide_self_nodup d _ (List.nodup_reverse.mpr hnd)
      (List.mem_reverse.mpr hmem)]
    rw [countP_map_ne WrapEv.enter _ _ (fun x => by simp)]
    rw [countP_map_ne WrapEv.body _ _ (fun x => by simp)]
  · intro hmem2
    rcases List.mem_append.mp hmem2 with h | h
    · rcases List.mem_map.mp h with ⟨x, _, hx⟩
      exact WrapEv.noConfusion hx
    · rcases List.mem_map.mp h with ⟨x, _, hx⟩
      exact WrapEv.noConfusion hx

/-- C8 witness: one scoped dependency around a one-step handler body:
the cleanup runs exactly once on the success path and exactly once on
the failure path. -/
theorem scoped_dependency_lifecycle_witness :
    (runChain [0] ([5], true)).1.countP (fun e => decide (e = WrapEv.exit 0)) = 1
    ∧ (runChain [0] ([5], false)).1.countP (fun e => decide (e = WrapEv.exit 0)) = 1 :=
  ⟨(scoped_dependency_lifecycle [0] ([5], true) 0 (by simp) (by simp)).2.2.1,
   (scoped_dependency_lifecycle [0] ([5], false) 0 (by simp) (by simp)).2.2.1⟩

/-- A Redis channel object as read by the schema generator: its name
and an optional glob pattern. -/
structure RedisChannel where
  name : String
  pattern : Option String

/-- Python truthiness of an optional string: present and non-empty. -/
def pyTruthy (o : Option String) : Bool :=
  match o with
  | some s => !s.isEmpty
  | none => false

/-- The Python expression x or y for an optional string x: yields y when
x is None or empty, else the content of x. -/
def pyOr (o : Option String) (d : String) : String :=
  match o with
  | some s => if s.isEmpty then d else s
  | none => d

/-- The Redis channel binding carried by a generated schema entry. -/
structure RedisChannelBinding where
  channel : String
  method : Option String

/-- The parts of a generated AsyncAPI channel entry this development
reasons about: description, operation direction, message title and the
Redis channel binding. -/
structure ChannelModel where
  description : Option String
  operation : String
  messageTitle : String
  binding : RedisChannelBinding

/-- The attributes of LogicRedisHandler that Handler.schema reads; the
logic class itself is outside the analysed sources and is treated as
opaque data. -/
structure Handler where
  include_in_schema : Bool
  _title : Option String
  channel_name : String
  call_name : String
  description : Option String
  list_sub : Option String
  channel : Option RedisChannel
  stream_sub : Option String

/-- Shallow embedding of Handler.schema from
src/faststream/redis/asyncapi.py: empty mapping unless included; one
entry keyed by the title or by channel_name:call_name; binding method
chosen by the chain list_sub, then channel (pattern deciding psubscribe
against subscribe), then stream_sub. -/
def Handler.schema (h : Handler) : List (String × ChannelModel) :=
  if !h.include_in_schema then []
  else
    let handler_name := pyOr h._title (h.channel_name ++ (":") ++ h.call_name)
    let method : Option String :=
      if h.list_sub.isSome then some ("lpop")
      else match h.channel with
        | some ch => if pyTruthy ch.pattern then some ("psubscribe") else some ("subscribe")
        | none =>
          match h.stream_sub with
          | some _ => some ("xread")
          | none => none
    [(handler_name,
      { description := h.description
        operation := ("subscribe")
        messageTitle := handler_name ++ (":Message")
        binding := { channel := h.channel_name, method := method } })]

/-- The attributes of LogicPublisher that Publisher.schema reads. -/
structure Publisher where
  include_in_schema : Bool
  title : Option String
  channel_name : String
  description : Option String
  list : Option String
  channel : Option RedisChannel
  stream_sub : Option String

/-- Shallow embedding of the Publisher.name property from
src/faststream/redis/asyncapi.py. -/
def Publisher.name (p : Publisher) : String :=
  pyOr p.title (p.channel_name ++ (":Publisher"))

/-- Shallow embedding of Publisher.schema from
src/faststream/redis/asyncapi.py. -/
def Publisher.schema (p : Publisher) : List (String × ChannelModel) :=
  if !p.include_in_schema then []
  else
    let method : Option String :=
      if p.list.isSome then some ("rpush")
      else if p.channel.isSome then some ("publish")
      else match p.stream_sub with
        | some _ => some ("xadd")
        | none => none
    [(Publisher.name p,
      { description := p.description
        operation := ("publish")
        messageTitle := Publisher.name p ++ (":Message")
        binding := { channel := p.channel_name, method := method } })]

theorem isEmpty_false_of_ne (t : String) (hne : ¬ t = ("")) : t.isEmpty = false := by
  cases h : t.isEmpty
  · rfl
  · exact absurd ((String.isEmpty_iff t).mp h) hne

/-- C9: For every Redis Handler and Publisher, schema returns the empty
mapping when include_in_schema is false, and otherwise a mapping with
exactly one channel entry whose key is the explicit title when a
non-empty title is set, else channel_name:call_name for a Handler and
channel_name:Publisher for a Publisher. -/
theorem schema_naming (h : Handler) (p : Publisher) :
    (h.include_in_schema = false → Handler.schema h = [])
    ∧ (p.include_in_schema = false → Publisher.schema p = [])
    ∧ (h.include_in_schema = true →
        (∀ t, h._title = some t → ¬ t = ("") →
          (Handler.schema h).map Prod.fst = [t])
        ∧ (h._title = none →
          (Handler.schema h).map Prod.fst = [h.channel_name ++ (":") ++ h.call_name]))
    ∧ (p.include_in_schema = true →
        (∀ t, p.title = some t → ¬ t = ("") →
          (Publisher.schema p).map Prod.fst = [t])
        ∧ (p.title = none →
          (Publisher.schema p).map Prod.fst = [p.channel_name ++ (":Publisher")])) := by
  refine ⟨?_, ?_, ?_, ?_⟩
  · intro hin
    simp [Handler.schema, hin]
  · intro hin
    simp [Publisher.schema, hin]
  · intro hin
    constructor
    · intro t ht hne
      simp [Handler.schema, hin, pyOr, ht, isEmpty_false_of_ne t hne]
    · intro ht
      simp [Handler.schema, hin, pyOr, ht]
  · intro hin
    constructor
    · intro t ht hne
      simp [Publisher.schema, Publisher.name, hin, pyOr, ht, isEmpty_false_of_ne t hne]
    · intro ht
      simp [Publisher.schema, Publisher.name, hin, pyOr, ht]

/-- A concrete handler record used to instantiate the schema theorems. -/
def hEx : Handler :=
  { include_in_schema := true, _title := none, channel_name := ("chan"),
    call_name := ("handle"), description := none, list_sub := none,
    channel := some { name := ("chan"), pattern := none }, stream_sub := none }

/-- A concrete publisher record used to instantiate the schema theorems. -/
def pEx : Publisher :=
  { include_in_schema := true, title := none, channel_name := ("chan"),
    description := none, list := none,
    channel := some { name := ("chan"), pattern := none }, stream_sub := none }

/-- C9 witness: with no explicit titles, the handler entry is keyed
chan:handle and the publisher entry chan:Publisher. -/
theorem schema_naming_witness :
    (Handler.schema hEx).map Prod.fst = [("chan:handle")]
    ∧ (Publisher.schema pEx).map Prod.fst = [("chan:Publisher")] := by
  have h := schema_naming hEx pEx
  exact ⟨((h.2.2.1 rfl).2 rfl).trans rfl, ((h.2.2.2 rfl).2 rfl).trans rfl⟩

/-- C10: The Redis channel-binding method of a generated schema entry is
fully determined by the subscription kind, checked in fixed priority
order: for a Handler, lpop when a list subscription is set, else
psubscribe when the channel has a pattern, subscribe when the channel
has no pattern, else xread when a stream subscription is set, else
none; for a Publisher, rpush for list, publish for channel, xadd for
stream, in that priority, else none. -/
theorem binding_method_priority (h : Handler) (p : Publisher)
    (hin : h.include_in_schema = true) (pin : p.include_in_schema = true) :
    (∀ l, h.list_sub = some l →
      (Handler.schema h).map (fun e => e.2.binding.method) = [some ("lpop")])
    ∧ (h.list_sub = none → ∀ ch, h.channel = some ch → pyTruthy ch.pattern = true →
      (Handler.schema h).map (fun e => e.2.binding.method) = [some ("psubscribe")])
    ∧ (h.list_sub = none → ∀ ch, h.channel = some ch → pyTruthy ch.pattern = false →
      (Handler.schema h).map (fun e => e.2.binding.method) = [some ("subscribe")])
    ∧ (h.list_sub = none → h.channel = none → ∀ st, h.stream_sub = some st →
      (Handler.schema h).map (fun e => e.2.binding.method) = [some ("xread")])
    ∧ (h.list_sub = none → h.channel = none → h.stream_sub = none →
      (Handler.schema h).map (fun e => e.2.binding.method) = [none])
    ∧ (∀ l, p.list = some l →
      (Publisher.schema p).map (fun e => e.2.binding.method) = [some ("rpush")])
    ∧ (p.list = none → ∀ ch, p.channel = some ch →
      (Publisher.schema p).map (fun e => e.2.binding.method) = [some ("publish")])
    ∧ (p.list = none → p.channel = none → ∀ st, p.stream_sub = some st →
      (Publisher.schema p).map (fun e => e.2.binding.method) = [some ("xadd")])
    ∧ (p.list = none → p.channel = none → p.stream_sub = none →
      (Publisher.schema p).map (fun e => e.2.binding.method) = [none]) := by
  refine ⟨?_, ?_, ?_, ?_, ?_, ?_, ?_, ?_, ?_⟩
  · intro l hl
    simp [Handler.schema, hin, hl]
  · intro h0 ch hch hpt
    simp [Handler.schema, hin, h0, hch, hpt]
  · intro h0 ch hch hpt
    simp [Handler.schema, hin, h0, hch, hpt]
  · intro h0 hc st hst
    simp [Handler.schema, hin, h0, hc, hst]
  · intro h0 hc hst
    simp [Handler.schema, hin, h0, hc, hst]
  · intro l hl
    simp [Publisher.schema, pin, hl]
  · intro h0 ch hch
    simp [Publisher.schema, pin, h0, hch]
  · intro h0 hc st hst
    simp [Publisher.schema, pin, h0, hc, hst]
  · intro h0 hc hst
    simp [Publisher.schema, pin, h0, hc, hst]

/-- C10 witness: a pattern-free channel subscription yields the method
subscribe for the handler and publish for the publisher. -/
theorem binding_method_priority_witness :
    (Handler.schema hEx).map (fun e => e.2.binding.method) = [some ("subscribe")]
    ∧ (Publisher.schema pEx).map (fun e => e.2.binding.method) = [some ("publish")] := by
  have h := binding_method_priority hEx pEx rfl rfl
  exact ⟨h.2.2.1 rfl { name := ("chan"), pattern := none } rfl rfl,
    h.2.2.2.2.2.2.1 rfl { name := ("chan"), pattern := none } rfl⟩
